import Mathlib

/-!
Verification of the enemy-AI / maze-pathfinding / grid-movement / collision
core of a tile-grid chase game. Definitions are shallow embeddings of the
Rust source (plugins/maze.rs, ai/mod.rs, ai/thief.rs, plugins/combat.rs,
plugins/movement.rs, plugins/enemies.rs); the external `pathfinding` crate's
A* search and the `rand` random source are modelled from their documented
contracts, as noted on the corresponding definitions.
-/

set_option maxHeartbeats 2000000

/-- Integer (x, y) cell coordinate, from components.rs `GridPosition`. -/
structure GridPosition where
  x : Int
  y : Int
deriving DecidableEq, Repr

/-- Cardinal direction, from components.rs `Direction`. -/
inductive Direction where
  | Up
  | Down
  | Left
  | Right
deriving DecidableEq, Repr

/-- Grid offset for a direction, from components.rs `Direction::delta`. -/
def Direction.delta : Direction → Int × Int
  | .Up => (0, -1)
  | .Down => (0, 1)
  | .Left => (-1, 0)
  | .Right => (1, 0)

/-- Opposite direction, from components.rs `Direction::opposite`. -/
def Direction.opposite : Direction → Direction
  | .Up => .Down
  | .Down => .Up
  | .Left => .Right
  | .Right => .Left

/-- The cell one step from `pos` in direction `d` (the `pos + delta` idiom
used throughout the source). -/
def stepCell (pos : GridPosition) (d : Direction) : GridPosition :=
  ⟨pos.x + d.delta.1, pos.y + d.delta.2⟩

/-- Tile kinds, from maze.rs `TileType`. -/
inductive TileType where
  | Wall
  | Floor
  | Money
  | PenGate
  | PlayerSpawn
  | EnemySpawn
  | WeaponSpawn
  | LuxurySpawn
deriving DecidableEq, Repr

/-- Character-to-tile decoding, from maze.rs `TileType::from_char`. -/
def TileType.from_char (c : Char) : Option TileType :=
  if c = '#' then some .Wall
  else if c = '.' then some .Money
  else if c = ' ' then some .Floor
  else if c = 'P' then some .PlayerSpawn
  else if c = 'G' then some .EnemySpawn
  else if c = 'W' then some .WeaponSpawn
  else if c = 'L' then some .LuxurySpawn
  else if c = '-' then some .PenGate
  else none

/-- Floor-likeness, from maze.rs `TileType::is_walkable_floor`. -/
def TileType.is_walkable_floor : TileType → Bool
  | .Floor => true
  | .Money => true
  | .PlayerSpawn => true
  | .EnemySpawn => true
  | .WeaponSpawn => true
  | .LuxurySpawn => true
  | _ => false

/-- Parsed maze, from maze.rs `MazeMap`. -/
structure MazeMap where
  width : Nat
  height : Nat
  tiles : List (List TileType)
  player_spawn : GridPosition
  enemy_spawns : List GridPosition
  weapon_spawns : List GridPosition
  luxury_spawns : List GridPosition
deriving DecidableEq, Repr

/-- The line-splitting of Rust `str::lines`, embedded on character lists:
lines are cut at every newline, a carriage return directly before a newline
is dropped with it, and a final trailing newline produces no extra line. -/
def rlines : List Char → List (List Char)
  | [] => []
  | '\r' :: '\n' :: cs => [] :: rlines cs
  | '\n' :: cs => [] :: rlines cs
  | c :: cs =>
    match rlines cs with
    | [] => [[c]]
    | l :: ls => (c :: l) :: ls

/-- Maximum line length, from the `lines.iter().map(len).max()` step of
`MazeMap::parse`. -/
def maxLen (lines : List (List Char)) : Nat :=
  lines.foldr (fun l acc => max l.length acc) 0

/-- Spawn bookkeeping accumulated during the parse scan of `MazeMap::parse`. -/
structure SpawnAcc where
  player_spawn : Option GridPosition
  enemy_spawns : List GridPosition
  weapon_spawns : List GridPosition
  luxury_spawns : List GridPosition
deriving DecidableEq, Repr

/-- Spawn-list updates for one scanned tile, from the `match tile` arm of
`MazeMap::parse`; a second player spawn is the only error. -/
def stepAcc (t : TileType) (pos : GridPosition) (acc : SpawnAcc) :
    Except String SpawnAcc :=
  match t with
  | .PlayerSpawn =>
    match acc.player_spawn with
    | some _ =>
      .error ("Multiple player spawns at (" ++ toString pos.x ++ ", " ++
        toString pos.y ++ ")")
    | none => .ok { acc with player_spawn := some pos }
  | .EnemySpawn => .ok { acc with enemy_spawns := acc.enemy_spawns ++ [pos] }
  | .WeaponSpawn => .ok { acc with weapon_spawns := acc.weapon_spawns ++ [pos] }
  | .LuxurySpawn => .ok { acc with luxury_spawns := acc.luxury_spawns ++ [pos] }
  | _ => .ok acc

/-- Scan of one maze row, from the inner character loop of `MazeMap::parse`:
unknown characters fail, spawn tiles update the accumulator. -/
def parseRow (y : Nat) : Nat → SpawnAcc → List Char →
    Except String (List TileType × SpawnAcc)
  | _, acc, [] => .ok ([], acc)
  | x, acc, c :: cs =>
    match TileType.from_char c with
    | none =>
      .error ("Unknown tile character " ++ toString c ++ " at (" ++
        toString x ++ ", " ++ toString y ++ ")")
    | some t =>
      match stepAcc t ⟨(x : Int), (y : Int)⟩ acc with
      | .error e => .error e
      | .ok acc2 =>
        match parseRow y (x + 1) acc2 cs with
        | .error e => .error e
        | .ok (row, acc3) => .ok (t :: row, acc3)

/-- Right-padding of a short row with Floor, from the `while row.len() < width`
loop of `MazeMap::parse`. -/
def padRow (w : Nat) (row : List TileType) : List TileType :=
  row ++ List.replicate (w - row.length) .Floor

/-- Scan of all maze rows, from the outer line loop of `MazeMap::parse`. -/
def parseRows (w : Nat) : Nat → SpawnAcc → List (List Char) →
    Except String (List (List TileType) × SpawnAcc)
  | _, acc, [] => .ok ([], acc)
  | y, acc, line :: rest =>
    match parseRow y 0 acc line with
    | .error e => .error e
    | .ok (row, acc2) =>
      match parseRows w (y + 1) acc2 rest with
      | .error e => .error e
      | .ok (rows, acc3) => .ok (padRow w row :: rows, acc3)

/-- Maze parsing, from maze.rs `MazeMap::parse`. -/
def MazeMap.parse (text : String) : Except String MazeMap :=
  let lines := rlines text.data
  if lines.isEmpty then .error ("Empty maze")
  else
    let width := maxLen lines
    if width = 0 then .error ("Maze has zero width")
    else
      match parseRows width 0 ⟨none, [], [], []⟩ lines with
      | .error e => .error e
      | .ok (tiles, acc) =>
        match acc.player_spawn with
        | none => .error ("No player spawn (P) found in maze")
        | some ps =>
          .ok { width := width, height := lines.length, tiles := tiles,
                player_spawn := ps, enemy_spawns := acc.enemy_spawns,
                weapon_spawns := acc.weapon_spawns,
                luxury_spawns := acc.luxury_spawns }

/-- Tile lookup, from maze.rs `MazeMap::tile_at`: total, None out of bounds. -/
def MazeMap.tile_at (m : MazeMap) (pos : GridPosition) : Option TileType :=
  if pos.x < 0 ∨ pos.y < 0 then none
  else
    match m.tiles.get? pos.y.toNat with
    | none => none
    | some row => row.get? pos.x.toNat

/-- General walkability, from maze.rs `MazeMap::is_walkable`: floor-like or
pen gate. -/
def MazeMap.is_walkable (m : MazeMap) (pos : GridPosition) : Bool :=
  match m.tile_at pos with
  | some t => t.is_walkable_floor || decide (t = .PenGate)
  | none => false

/-- Player walkability, from maze.rs `MazeMap::is_walkable_for_player`: pen
gates excluded. -/
def MazeMap.is_walkable_for_player (m : MazeMap) (pos : GridPosition) : Bool :=
  match m.tile_at pos with
  | some t => t.is_walkable_floor
  | none => false

/-- Enemy walkability, from maze.rs `MazeMap::is_walkable_for_enemy`: equals
general walkability. -/
def MazeMap.is_walkable_for_enemy (m : MazeMap) (pos : GridPosition) : Bool :=
  m.is_walkable pos

/-- Enemy-walkable cardinal neighbors in order Up, Down, Left, Right, from
maze.rs `MazeMap::enemy_neighbors`. -/
def MazeMap.enemy_neighbors (m : MazeMap) (pos : GridPosition) :
    List GridPosition :=
  ([((0 : Int), (-1 : Int)), (0, 1), (-1, 0), (1, 0)].map
    (fun d => GridPosition.mk (pos.x + d.1) (pos.y + d.2))).filter
    (fun p => m.is_walkable_for_enemy p)

/-- Manhattan distance, from ai/mod.rs `manhattan`. -/
def manhattan (a b : GridPosition) : Nat :=
  (a.x - b.x).natAbs + (a.y - b.y).natAbs

/-- Direction from one cell to an adjacent cell, from ai/mod.rs
`direction_between`. -/
def direction_between (a b : GridPosition) : Option Direction :=
  let dx := b.x - a.x
  let dy := b.y - a.y
  if dx = 1 ∧ dy = 0 then some .Right
  else if dx = -1 ∧ dy = 0 then some .Left
  else if dx = 0 ∧ dy = 1 then some .Down
  else if dx = 0 ∧ dy = -1 then some .Up
  else none

/-! ### Character counting over split lines -/

/-- Total count of a character across split lines. -/
def countLines (c : Char) (lines : List (List Char)) : Nat :=
  (lines.map (List.count c)).sum

/-! ### Movement validation, from movement.rs -/

/-- Visual interpolation marker, from components.rs `MoveLerp`; the world-space
endpoints and progress fraction are presentation-level, so the marker records
the grid endpoints of the in-flight transition. -/
structure MoveLerpG where
  src : GridPosition
  dst : GridPosition
deriving DecidableEq, Repr

/-- The per-entity component state read by `movement_validation`: a logical
grid position, the pending `MoveDirection`, the optional `MoveLerp`, the
optional `PreviousGridPosition`, and whether the entity is the player. -/
structure MoverState where
  pos : GridPosition
  dir : Direction
  lerp : Option MoveLerpG
  prev : Option GridPosition
  is_player : Bool
deriving DecidableEq, Repr

/-- The per-entity component state after `movement_validation`: the pending
direction may have been removed, a lerp and a previous position may have been
inserted. -/
structure MoverResult where
  pos : GridPosition
  dir : Option Direction
  lerp : Option MoveLerpG
  prev : Option GridPosition
deriving DecidableEq, Repr

/-- One entity step of movement.rs `movement_validation`: skip while a lerp
is in flight; otherwise validate the destination against the mover's
walkability rule, either rejecting (direction removed) or committing (grid
position updated immediately, previous position recorded, lerp started). -/
def movement_validation (m : MazeMap) (e : MoverState) : MoverResult :=
  match e.lerp with
  | some l => ⟨e.pos, some e.dir, some l, e.prev⟩
  | none =>
    let d := e.dir.delta
    let target : GridPosition := ⟨e.pos.x + d.1, e.pos.y + d.2⟩
    let walkable := if e.is_player then m.is_walkable_for_player target
      else m.is_walkable_for_enemy target
    if walkable then ⟨target, some e.dir, some ⟨e.pos, target⟩, some e.pos⟩
    else ⟨e.pos, none, none, e.prev⟩

/-! ### Collision detection, from enemies.rs -/

/-- Per-enemy component state read by `enemy_player_collision`: current cell,
optional previous cell, and the three behavioral markers whose absence makes
the enemy eligible for the deadly-collision query. -/
structure EnemyRec where
  pos : GridPosition
  prev : Option GridPosition
  in_pen : Bool
  frightened : Bool
  respawning : Bool
deriving DecidableEq, Repr

/-- The query filter of `enemy_player_collision` (enemies `Without<InPen>`,
`Without<Frightened>`, `Without<Respawning>`). -/
def eligibleEnemy (e : EnemyRec) : Bool :=
  !e.in_pen && !e.frightened && !e.respawning

/-- The per-enemy collision test of enemies.rs `enemy_player_collision`:
same tile, or both parties recorded a previous cell and they swapped cells
this tick; a missing previous cell makes the crossing test false. -/
def collisionWith (ppos : GridPosition) (pprev : Option GridPosition)
    (e : EnemyRec) : Bool :=
  let same_tile := decide (ppos = e.pos)
  let crossed :=
    match pprev, e.prev with
    | some pp, some ep => decide (pp = e.pos) && decide (ep = ppos)
    | _, _ => false
  same_tile || crossed

/-- Mutable resources touched by `enemy_player_collision`: the life counter,
the death counter (a u32, hence the wrap at 2^32), and whether the
PlayerDeath transition was requested. -/
structure CollisionState where
  lives : Nat
  deaths : Nat
  death_triggered : Bool
deriving DecidableEq, Repr

/-- System step of enemies.rs `enemy_player_collision`: scan eligible
enemies; on the first collision decrement lives (only when positive),
increment the death counter, request the PlayerDeath transition, and stop. -/
def enemy_player_collision (ppos : GridPosition) (pprev : Option GridPosition)
    (enemies : List EnemyRec) (st : CollisionState) : CollisionState :=
  match (enemies.filter eligibleEnemy).find? (collisionWith ppos pprev) with
  | some _ =>
    { lives := if st.lives > 0 then st.lives - 1 else st.lives,
      deaths := (st.deaths + 1) % 4294967296,
      death_triggered := true }
  | none => st

/-! ### Shortest paths over enemy-walkable cells

The Rust source delegates the search to the external `pathfinding` crate
(`pathfinding::prelude::astar` with `enemy_neighbors` as successor function,
unit edge cost, and the Manhattan heuristic, which is admissible on a
4-directional unit grid). The crate's contract — return some minimum-cost
path from start to goal as a list beginning with the start node, or none
when the goal is unreachable — is modelled here by an executable
breadth-first search over the same successor function. -/

/-- Hop-bounded reachability along `enemy_neighbors` steps: can `a` reach
`b` in at most `n` steps. This is the path semantics the search is measured
against. -/
def reachesInB (m : MazeMap) : Nat → GridPosition → GridPosition → Bool
  | 0, a, b => decide (a = b)
  | n + 1, a, b =>
    decide (a = b) || (m.enemy_neighbors a).any (fun c => reachesInB m n c b)

/-- Neighbor set of a cell. -/
def nbrFinset (m : MazeMap) (x : GridPosition) : Finset GridPosition :=
  (m.enemy_neighbors x).toFinset

/-- One breadth-first expansion step. -/
def expandSet (m : MazeMap) (s : Finset GridPosition) : Finset GridPosition :=
  s ∪ s.biUnion (nbrFinset m)

/-- Cells reachable from `src` in at most `n` steps. -/
def fwdSet (m : MazeMap) (src : GridPosition) : Nat → Finset GridPosition
  | 0 => {src}
  | n + 1 => expandSet m (fwdSet m src n)

/-- Length of stored row `y`, 0 when absent. -/
def rowLenAt (m : MazeMap) (y : Nat) : Nat :=
  ((m.tiles.get? y).map List.length).getD 0

/-- A finite universe containing `src` and every cell with a stored tile;
all breadth-first sets live inside it. -/
def cellUniv (m : MazeMap) (src : GridPosition) : Finset GridPosition :=
  insert src ((Finset.range m.tiles.length).biUnion (fun y =>
    (Finset.range (rowLenAt m y)).image
      (fun x => GridPosition.mk ((x : Nat) : Int) ((y : Nat) : Int))))

/-- Least `n ≥ start` with `p n`, among `fuel` candidates. -/
def findLeast (p : Nat → Bool) : Nat → Nat → Option Nat
  | 0, _ => none
  | fuel + 1, start =>
    if p start then some start else findLeast p fuel (start + 1)

/-- Geodesic hop distance from `src` to `tgt` computed by iterated
breadth-first expansion; the universe cardinality bounds the search depth. -/
def bfsDist (m : MazeMap) (src tgt : GridPosition) : Option Nat :=
  findLeast (fun n => decide (tgt ∈ fwdSet m src n))
    ((cellUniv m src).card + 1) 0

/-- A concrete minimum-hop path of length `d` obtained by stepping to any
neighbor whose distance to the target is one smaller. -/
def pathFrom (m : MazeMap) (tgt : GridPosition) : Nat → GridPosition →
    List GridPosition
  | 0, cur => [cur]
  | d + 1, cur =>
    match (m.enemy_neighbors cur).find?
        (fun n => decide (bfsDist m n tgt = some d)) with
    | some n => cur :: pathFrom m tgt d n
    | none => [cur]

/-- Modelled from the spec: `pathfinding::prelude::astar` as called in
ai/mod.rs `next_direction_toward` — successor function `enemy_neighbors`,
unit edge cost, admissible Manhattan heuristic. Its documented contract is
to return `some (steps, cost)` where `steps` is a minimum-cost path starting
at the start node and ending at the goal, or `none` when the goal is
unreachable. -/
def astar (m : MazeMap) (src tgt : GridPosition) :
    Option (List GridPosition × Nat) :=
  match bfsDist m src tgt with
  | none => none
  | some d => some (pathFrom m tgt d src, d)

/-- First-step direction extraction, from ai/mod.rs `next_direction_toward`:
no direction when the path has fewer than 2 nodes, else the direction from
the origin to the second path node. -/
def next_direction_toward (src tgt : GridPosition) (m : MazeMap) :
    Option Direction :=
  match astar m src tgt with
  | none => none
  | some (steps, _cost) =>
    if steps.length < 2 then none
    else
      match steps.get? 1 with
      | none => none
      | some nxt => direction_between src nxt

/-! ### Frightened flee policy, from combat.rs, and archetype dispatch -/

/-- Rust `Iterator::max_by_key` over grid cells with a Nat key: none on an
empty list; when several elements are tied for the maximum the LAST one is
returned (the running maximum is replaced whenever the new key is ≥ it). -/
def max_by_key (key : GridPosition → Nat) (l : List GridPosition) :
    Option GridPosition :=
  l.foldl (fun acc n =>
    match acc with
    | none => some n
    | some b => if key b ≤ key n then some n else some b) none

/-- Flee policy for frightened enemies, from combat.rs
`frightened_direction`: the enemy-walkable neighbor farthest (Manhattan)
from the player, turned into a direction by the same (dx, dy) match as
ai/mod.rs `direction_between`. -/
def frightened_direction (enemy_pos player_pos : GridPosition)
    (m : MazeMap) : Option Direction :=
  let neighbors := m.enemy_neighbors enemy_pos
  match max_by_key (fun n => manhattan n player_pos) neighbors with
  | none => none
  | some target => direction_between enemy_pos target

/-- Following the words of the specification for the flee policy: ties
broken by the FIRST maximal candidate in neighbor order Up, Down, Left,
Right (the running maximum is replaced only when the new key is >). Stated
for comparison with `frightened_direction`. -/
def max_by_key_first (key : GridPosition → Nat) (l : List GridPosition) :
    Option GridPosition :=
  l.foldl (fun acc n =>
    match acc with
    | none => some n
    | some b => if key b < key n then some n else some b) none

/-- The flee policy as the specification words it (first maximal neighbor
wins ties). -/
def frightened_direction_firstmax (enemy_pos player_pos : GridPosition)
    (m : MazeMap) : Option Direction :=
  match max_by_key_first (fun n => manhattan n player_pos)
      (m.enemy_neighbors enemy_pos) with
  | none => none
  | some target => direction_between enemy_pos target

/-- Soldier AI, from ai/soldier.rs `choose_direction`: A* straight at the
player. -/
def soldier_choose_direction (enemy_pos player_pos : GridPosition)
    (_player_dir : Direction) (m : MazeMap) : Option Direction :=
  next_direction_toward enemy_pos player_pos m

/-- Brute AI, from ai/brute.rs `choose_direction`: same targeting as the
soldier (speed differs only through MoveSpeed). -/
def brute_choose_direction (enemy_pos player_pos : GridPosition)
    (_player_dir : Direction) (m : MazeMap) : Option Direction :=
  next_direction_toward enemy_pos player_pos m

/-- Inquisitor AI, from ai/inquisitor.rs `choose_direction`: target 4 tiles
ahead of the player's facing, falling back to the player's cell when that
target is not enemy-walkable. -/
def inquisitor_choose_direction (enemy_pos player_pos : GridPosition)
    (player_dir : Direction) (m : MazeMap) : Option Direction :=
  let d := player_dir.delta
  let ahead : GridPosition :=
    ⟨player_pos.x + d.1 * 4, player_pos.y + d.2 * 4⟩
  let target := if m.is_walkable_for_enemy ahead then ahead else player_pos
  next_direction_toward enemy_pos target m

/-- Random fallback of the thief, from ai/thief.rs `random_direction`; the
`rand::thread_rng` sample `gen_range(0..valid.len())` is modelled by the
injectable index `rngIdx`, reduced modulo the candidate count (the spec
calls for an injectable random source). -/
def random_direction (pos : GridPosition) (m : MazeMap) (rngIdx : Nat) :
    Option Direction :=
  let dirs := [Direction.Up, Direction.Down, Direction.Left, Direction.Right]
  let valid := dirs.filter (fun d =>
    let dd := d.delta
    m.is_walkable_for_enemy ⟨pos.x + dd.1, pos.y + dd.2⟩)
  if valid.isEmpty then none
  else valid.get? (rngIdx % valid.length)

/-- Thief AI, from ai/thief.rs `choose_direction`: within Manhattan
distance 8 chase the player with probability 0.7, otherwise walk to a
random valid neighbor; the `gen_bool(0.7)` coin is modelled by the
injectable `chaseCoin`. -/
def thief_choose_direction (enemy_pos player_pos : GridPosition)
    (_player_dir : Direction) (m : MazeMap) (chaseCoin : Bool)
    (rngIdx : Nat) : Option Direction :=
  let dist := manhattan enemy_pos player_pos
  if dist ≤ 8 ∧ chaseCoin = true then
    next_direction_toward enemy_pos player_pos m
  else random_direction enemy_pos m rngIdx

/-- Concrete 4x4 maze (the parse of "####\n#P #\n#G #\n####") used to
instantiate the pathfinding theorems. -/
def M4 : MazeMap :=
  MazeMap.mk 4 4
    [[.Wall, .Wall, .Wall, .Wall],
     [.Wall, .PlayerSpawn, .Floor, .Wall],
     [.Wall, .EnemySpawn, .Floor, .Wall],
     [.Wall, .Wall, .Wall, .Wall]] ⟨1, 1⟩ [⟨1, 2⟩] [] []

/-- Concrete 5x4 maze (the parse of a small open room) with two flee
candidates tied in Manhattan distance, used for the flee tie-break. -/
def MF : MazeMap :=
  MazeMap.mk 5 4
    [[.Wall, .Wall, .Wall, .Wall, .Wall],
     [.Wall, .Floor, .PlayerSpawn, .Floor, .Wall],
     [.Wall, .Floor, .Floor, .Floor, .Wall],
     [.Wall, .Wall, .Wall, .Wall, .Wall]] ⟨2, 1⟩ [] [] []

example : (MazeMap.parse ("####\n#P.#\n#G #\n####")).toOption =
    some (MazeMap.mk 4 4
      [[.Wall, .Wall, .Wall, .Wall],
       [.Wall, .PlayerSpawn, .Money, .Wall],
       [.Wall, .EnemySpawn, .Floor, .Wall],
       [.Wall, .Wall, .Wall, .Wall]]
      ⟨1, 1⟩ [⟨1, 2⟩] [] []) := by decide

example :
    (MazeMap.parse ("####\n#P.#\n#G #\n####")).toOption.map
      (fun m => m.enemy_neighbors ⟨1, 2⟩) = some [⟨1, 1⟩, ⟨2, 2⟩] := by decide

example :
    (MazeMap.parse ("#-#\n#P#\n###")).toOption.map
      (fun m => (m.is_walkable_for_enemy ⟨1, 0⟩, m.is_walkable_for_player ⟨1, 0⟩)) =
    some (true, false) := by decide

theorem rlines_count (c : Char) (h1 : c ≠ '\n') (h2 : c ≠ '\r') :
    ∀ cs : List Char, countLines c (rlines cs) = cs.count c := by
  intro cs
  unfold countLines
  induction cs using rlines.induct with
  | case1 => simp [rlines]
  | case2 cs ih =>
    simp only [rlines, List.map_cons, List.sum_cons, List.count_nil,
      List.count_cons] at ih ⊢
    simp [ih, Ne.symm h1, Ne.symm h2]
  | case3 cs ih =>
    simp only [rlines, List.map_cons, List.sum_cons, List.count_nil,
      List.count_cons] at ih ⊢
    simp [ih, Ne.symm h1]
  | case4 a cs hr hn hcs ih =>
    rw [rlines, hcs]
    · rw [hcs] at ih
      simp only [List.map_cons, List.map_nil, List.sum_cons, List.sum_nil,
        List.count_cons, List.count_nil] at ih ⊢
      rw [← ih]
      ring
    · intro cs1 h3 h4; exact hr cs1 h3 h4
    · intro h3; exact hn h3
  | case5 a cs hr hn l ls hcs ih =>
    rw [rlines, hcs]
    · rw [hcs] at ih
      simp only [List.map_cons, List.sum_cons, List.count_cons] at ih ⊢
      rw [← ih]
      ring
    · intro cs1 h3 h4; exact hr cs1 h3 h4
    · intro h3; exact hn h3

theorem le_maxLen {lines : List (List Char)} {line : List Char}
    (h : line ∈ lines) : line.length ≤ maxLen lines := by
  induction lines with
  | nil => cases h
  | cons l ls ih =>
    rcases List.mem_cons.mp h with h | h
    · subst h; exact le_max_left _ _
    · exact le_trans (ih h) (le_max_right _ _)

theorem from_char_P : TileType.from_char 'P' = some .PlayerSpawn := by decide

theorem from_char_eq_player {c : Char}
    (h : TileType.from_char c = some .PlayerSpawn) : c = 'P' := by
  unfold TileType.from_char at h
  split_ifs at h <;> simp_all

theorem stepAcc_player (t : TileType) (pos : GridPosition) (acc acc2 : SpawnAcc)
    (h : stepAcc t pos acc = .ok acc2) :
    acc2.player_spawn = acc.player_spawn ∨
      (t = .PlayerSpawn ∧ acc.player_spawn = none ∧
        acc2.player_spawn = some pos) := by
  cases t <;> simp only [stepAcc] at h
  case PlayerSpawn =>
    cases hp : acc.player_spawn with
    | some p => rw [hp] at h; simp at h
    | none =>
      rw [hp] at h
      simp only [Except.ok.injEq] at h
      exact Or.inr ⟨rfl, rfl, by rw [← h]⟩
  all_goals (simp only [Except.ok.injEq] at h; subst h; left; rfl)

theorem stepAcc_not_player (t : TileType) (pos : GridPosition) (acc : SpawnAcc)
    (h : t ≠ .PlayerSpawn) :
    ∃ acc2, stepAcc t pos acc = .ok acc2 ∧
      acc2.player_spawn = acc.player_spawn := by
  cases t <;> simp only [stepAcc] <;> first
    | exact absurd rfl h
    | exact ⟨_, rfl, rfl⟩

theorem parseRow_length (y : Nat) :
    ∀ (line : List Char) (x : Nat) (acc : SpawnAcc) (row : List TileType)
      (acc2 : SpawnAcc),
      parseRow y x acc line = .ok (row, acc2) → row.length = line.length := by
  intro line
  induction line with
  | nil =>
    intro x acc row acc2 h
    simp only [parseRow, Except.ok.injEq, Prod.mk.injEq] at h
    simp [← h.1]
  | cons c cs ih =>
    intro x acc row acc2 h
    simp only [parseRow] at h
    split at h
    · simp at h
    split at h
    · simp at h
    split at h
    · simp at h
    next y2 acc3 row2 acc4 hpr =>
      simp only [Except.ok.injEq, Prod.mk.injEq] at h
      rw [← h.1, List.length_cons, ih _ _ _ _ hpr]
      simp

theorem parseRow_spawn (y : Nat) :
    ∀ (line : List Char) (x : Nat) (acc : SpawnAcc) (row : List TileType)
      (acc2 : SpawnAcc),
      parseRow y x acc line = .ok (row, acc2) →
      ∀ q, acc2.player_spawn = some q →
        acc.player_spawn = some q ∨
          (q.y = (y : Int) ∧ ∃ i, i < line.length ∧ line.get? i = some 'P' ∧
            q.x = ((x + i : Nat) : Int)) := by
  intro line
  induction line with
  | nil =>
    intro x acc row acc2 h q hq
    simp only [parseRow, Except.ok.injEq, Prod.mk.injEq] at h
    left
    rw [h.2]
    exact hq
  | cons c cs ih =>
    intro x acc row acc2 h q hq
    simp only [parseRow] at h
    split at h
    · simp at h
    · rename_i t hfc
      split at h
      · simp at h
      · rename_i acc3 hsa
        split at h
        · simp at h
        · rename_i row2 acc4 hpr
          simp only [Except.ok.injEq, Prod.mk.injEq] at h
          have hq4 : acc4.player_spawn = some q := by rw [h.2]; exact hq
          rcases ih (x + 1) acc3 row2 acc4 hpr q hq4 with h3 | ⟨hy, i, hi, hP, hx⟩
          · rcases stepAcc_player t ⟨(x : Int), (y : Int)⟩ acc acc3 hsa with
              heq | ⟨ht, hnone, hset⟩
            · left
              rw [← heq]
              exact h3
            · rw [hset] at h3
              have hqx : q = ⟨(x : Int), (y : Int)⟩ := by
                injection h3 with h3
                rw [← h3]
              right
              refine ⟨by rw [hqx], 0, by simp, ?_, by rw [hqx]; simp⟩
              have hcP : c = 'P' := from_char_eq_player (by rw [← ht]; exact hfc)
              simp [hcP]
          · right
            refine ⟨hy, i + 1, by simpa using hi, by simpa using hP, ?_⟩
            rw [hx]
            congr 1
            omega

theorem parseRow_success (y : Nat) :
    ∀ (line : List Char) (x : Nat) (acc : SpawnAcc),
      (∀ c ∈ line, (TileType.from_char c).isSome = true) →
      (acc.player_spawn = none → line.count 'P' ≤ 1) →
      (∀ p, acc.player_spawn = some p → line.count 'P' = 0) →
      ∃ row acc2, parseRow y x acc line = .ok (row, acc2) ∧
        (acc2.player_spawn = none ↔
          (acc.player_spawn = none ∧ line.count 'P' = 0)) := by
  intro line
  induction line with
  | nil =>
    intro x acc hv hb1 hb2
    exact ⟨[], acc, rfl, by simp⟩
  | cons c cs ih =>
    intro x acc hv hb1 hb2
    have hvc : (TileType.from_char c).isSome = true :=
      hv c (List.mem_cons_self c cs)
    obtain ⟨t, hfc⟩ := Option.isSome_iff_exists.mp hvc
    have hvtail : ∀ d ∈ cs, (TileType.from_char d).isSome = true :=
      fun d hd => hv d (List.mem_cons_of_mem c hd)
    by_cases hcP : c = 'P'
    · have ht : t = .PlayerSpawn := by
        rw [hcP] at hfc
        rw [from_char_P] at hfc
        injection hfc with hfc
        rw [hfc]
      cases hap : acc.player_spawn with
      | some p =>
        have h0 := hb2 p hap
        rw [hcP] at h0
        simp [List.count_cons] at h0
      | none =>
        have hcount : cs.count 'P' = 0 := by
          have hb := hb1 hap
          rw [hcP] at hb
          simp [List.count_cons] at hb
          exact hb
        obtain ⟨row2, acc4, hpr, hiff⟩ :=
          ih (x + 1) { acc with player_spawn := some ⟨(x : Int), (y : Int)⟩ }
            hvtail (by intro hn; simp at hn) (fun p _ => hcount)
        refine ⟨t :: row2, acc4, ?_, ?_⟩
        · simp only [parseRow, hfc, ht, stepAcc, hap, hpr]
        · rw [hiff]
          simp [hcP, List.count_cons, hcount]
    · have ht : t ≠ .PlayerSpawn := fun h => hcP (from_char_eq_player (h ▸ hfc))
      obtain ⟨acc3, hsa, hps⟩ := stepAcc_not_player t ⟨(x : Int), (y : Int)⟩ acc ht
      have hcount : (c :: cs).count 'P' = cs.count 'P' := by
        simp [List.count_cons, hcP]
      obtain ⟨row2, acc4, hpr, hiff⟩ := ih (x + 1) acc3 hvtail
        (by rw [hps]; intro hn; have := hb1 hn; omega)
        (by rw [hps]; intro p hp; have := hb2 p hp; omega)
      refine ⟨t :: row2, acc4, ?_, ?_⟩
      · simp only [parseRow, hfc, hsa, hpr]
      · rw [hiff, hps, hcount]

theorem parseRows_length (w : Nat) :
    ∀ (lines : List (List Char)) (y : Nat) (acc : SpawnAcc)
      (tiles : List (List TileType)) (acc2 : SpawnAcc),
      parseRows w y acc lines = .ok (tiles, acc2) →
      tiles.length = lines.length := by
  intro lines
  induction lines with
  | nil =>
    intro y acc tiles acc2 h
    simp only [parseRows, Except.ok.injEq, Prod.mk.injEq] at h
    simp [← h.1]
  | cons line rest ih =>
    intro y acc tiles acc2 h
    simp only [parseRows] at h
    split at h
    · simp at h
    · rename_i row acc3 hrow
      split at h
      · simp at h
      · rename_i rows acc4 hrows
        simp only [Except.ok.injEq, Prod.mk.injEq] at h
        rw [← h.1]
        simp [ih _ _ _ _ hrows]

theorem parseRows_rowlen (w : Nat) :
    ∀ (lines : List (List Char)) (y : Nat) (acc : SpawnAcc)
      (tiles : List (List TileType)) (acc2 : SpawnAcc),
      parseRows w y acc lines = .ok (tiles, acc2) →
      (∀ line ∈ lines, line.length ≤ w) →
      ∀ r ∈ tiles, r.length = w := by
  intro lines
  induction lines with
  | nil =>
    intro y acc tiles acc2 h hw
    simp only [parseRows, Except.ok.injEq, Prod.mk.injEq] at h
    rw [← h.1]
    intro r hr
    cases hr
  | cons line rest ih =>
    intro y acc tiles acc2 h hw
    simp only [parseRows] at h
    split at h
    · simp at h
    · rename_i row acc3 hrow
      split at h
      · simp at h
      · rename_i rows acc4 hrows
        simp only [Except.ok.injEq, Prod.mk.injEq] at h
        rw [← h.1]
        intro r hr
        rcases List.mem_cons.mp hr with hr | hr
        · rw [hr]
          unfold padRow
          have hlen : row.length = line.length := parseRow_length y line 0 acc row acc3 hrow
          have hle : line.length ≤ w := hw line (List.mem_cons_self line rest)
          simp [hlen]
          omega
        · exact ih _ _ _ _ hrows (fun l hl => hw l (List.mem_cons_of_mem line hl)) r hr

theorem parseRows_spawn (w : Nat) :
    ∀ (lines : List (List Char)) (y : Nat) (acc : SpawnAcc)
      (tiles : List (List TileType)) (acc2 : SpawnAcc),
      parseRows w y acc lines = .ok (tiles, acc2) →
      ∀ q, acc2.player_spawn = some q →
        acc.player_spawn = some q ∨
          (∃ j line i, lines.get? j = some line ∧ line.get? i = some 'P' ∧
            q.y = ((y + j : Nat) : Int) ∧ q.x = ((i : Nat) : Int)) := by
  intro lines
  induction lines with
  | nil =>
    intro y acc tiles acc2 h q hq
    simp only [parseRows, Except.ok.injEq, Prod.mk.injEq] at h
    left
    rw [h.2]
    exact hq
  | cons line rest ih =>
    intro y acc tiles acc2 h q hq
    simp only [parseRows] at h
    split at h
    · simp at h
    · rename_i row acc3 hrow
      split at h
      · simp at h
      · rename_i rows acc4 hrows
        simp only [Except.ok.injEq, Prod.mk.injEq] at h
        have hq4 : acc4.player_spawn = some q := by rw [h.2]; exact hq
        rcases ih _ _ _ _ hrows q hq4 with h3 | ⟨j, line2, i, hj, hP, hy, hx⟩
        · rcases parseRow_spawn y line 0 acc row acc3 hrow q h3 with
            h4 | ⟨hy, i, hi, hP, hx⟩
          · left; exact h4
          · right
            exact ⟨0, line, i, by simp, hP, by simpa using hy, by simpa using hx⟩
        · right
          refine ⟨j + 1, line2, i, by simpa using hj, hP, ?_, hx⟩
          rw [hy]
          congr 1
          omega

theorem parseRows_success (w : Nat) :
    ∀ (lines : List (List Char)) (y : Nat) (acc : SpawnAcc),
      (∀ line ∈ lines, ∀ c ∈ line, (TileType.from_char c).isSome = true) →
      (acc.player_spawn = none → countLines 'P' lines ≤ 1) →
      (∀ p, acc.player_spawn = some p → countLines 'P' lines = 0) →
      ∃ tiles acc2, parseRows w y acc lines = .ok (tiles, acc2) ∧
        (acc2.player_spawn = none ↔
          (acc.player_spawn = none ∧ countLines 'P' lines = 0)) := by
  intro lines
  induction lines with
  | nil =>
    intro y acc hv hb1 hb2
    exact ⟨[], acc, rfl, by simp [countLines]⟩
  | cons line rest ih =>
    intro y acc hv hb1 hb2
    have hcsplit : countLines 'P' (line :: rest) =
        line.count 'P' + countLines 'P' rest := by
      simp [countLines]
    obtain ⟨row, acc3, hrow, hiff3⟩ := parseRow_success y line 0 acc
      (hv line (List.mem_cons_self line rest))
      (fun hn => by have := hb1 hn; omega)
      (fun p hp => by have := hb2 p hp; omega)
    obtain ⟨tiles2, acc4, hrows, hiff4⟩ := ih (y + 1) acc3
      (fun l hl => hv l (List.mem_cons_of_mem line hl))
      (fun hn => by
        have h3 := hiff3.mp hn
        have := hb1 h3.1
        omega)
      (fun p hp => by
        cases hap : acc.player_spawn with
        | some p2 =>
          have := hb2 p2 hap
          omega
        | none =>
          have hb := hb1 hap
          have hne : ¬ acc3.player_spawn = none := by
            intro hn
            rw [hn] at hp
            exact Option.noConfusion hp
          have hcnt : ¬ (acc.player_spawn = none ∧ line.count 'P' = 0) :=
            fun hc => hne (hiff3.mpr hc)
          have : line.count 'P' ≠ 0 := by
            intro h0
            exact hcnt ⟨hap, h0⟩
          omega)
    refine ⟨padRow w row :: tiles2, acc4, ?_, ?_⟩
    · simp only [parseRows, hrow, hrows]
    · rw [hiff4, hiff3, hcsplit]
      constructor
      · rintro ⟨⟨h1, h2⟩, h3⟩
        exact ⟨h1, by omega⟩
      · rintro ⟨h1, h2⟩
        exact ⟨⟨h1, by omega⟩, by omega⟩

theorem natCast_toNat (n : Nat) : ((n : Int)).toNat = n := by omega

/-- Destructuring of a successful parse into its pipeline components. -/
theorem parse_ok_elim (text : String) (m : MazeMap)
    (h : MazeMap.parse text = .ok m) :
    ∃ tiles acc,
      parseRows (maxLen (rlines text.data)) 0 ⟨none, [], [], []⟩
        (rlines text.data) = .ok (tiles, acc) ∧
      acc.player_spawn = some m.player_spawn ∧
      m.width = maxLen (rlines text.data) ∧
      m.height = (rlines text.data).length ∧
      m.tiles = tiles := by
  simp only [MazeMap.parse] at h
  split at h
  · simp at h
  · split at h
    · simp at h
    · split at h
      · simp at h
      · rename_i tiles acc hrows
        split at h
        · simp at h
        · rename_i ps hps
          simp only [Except.ok.injEq] at h
          rw [← h]
          exact ⟨tiles, acc, hrows, hps, rfl, rfl, rfl⟩

/-- C6: for every successfully parsed maze and every coordinate with x < 0,
y < 0, x ≥ width, or y ≥ height, all three walkability queries return false
and tile lookup returns none; parsing pads short rows so every stored row
has length equal to the width (and there is one stored row per line). -/
theorem walkability_total_out_of_bounds (text : String) (m : MazeMap)
    (h : MazeMap.parse text = .ok m) :
    m.tiles.length = m.height ∧
    (∀ r ∈ m.tiles, r.length = m.width) ∧
    (∀ pos : GridPosition,
      pos.x < 0 ∨ pos.y < 0 ∨ (m.width : Int) ≤ pos.x ∨
        (m.height : Int) ≤ pos.y →
      m.tile_at pos = none ∧ m.is_walkable pos = false ∧
        m.is_walkable_for_player pos = false ∧
        m.is_walkable_for_enemy pos = false) := by
  obtain ⟨tiles, acc, hrows, hps, hw, hh, ht⟩ := parse_ok_elim text m h
  have hlen : m.tiles.length = m.height := by
    rw [ht, hh]
    exact parseRows_length _ _ _ _ _ _ hrows
  have hrlen : ∀ r ∈ m.tiles, r.length = m.width := by
    rw [ht, hw]
    exact parseRows_rowlen _ _ _ _ _ _ hrows (fun line hl => le_maxLen hl)
  refine ⟨hlen, hrlen, ?_⟩
  intro pos hpos
  have htile : m.tile_at pos = none := by
    unfold MazeMap.tile_at
    by_cases hneg : pos.x < 0 ∨ pos.y < 0
    · simp [hneg]
    · rw [if_neg hneg]
      push_neg at hneg
      rcases hpos with hx | hy | hx | hy
      · exact absurd hx (by omega)
      · exact absurd hy (by omega)
      · cases hgy : m.tiles.get? pos.y.toNat with
        | none => rfl
        | some row =>
          have hrw : row.length = m.width := hrlen row (List.get?_mem hgy)
          exact List.get?_eq_none.mpr (by omega)
      · have hlt : m.tiles.length ≤ pos.y.toNat := by omega
        rw [List.get?_eq_none.mpr hlt]
  refine ⟨htile, ?_, ?_, ?_⟩
  · unfold MazeMap.is_walkable
    rw [htile]
  · unfold MazeMap.is_walkable_for_player
    rw [htile]
  · unfold MazeMap.is_walkable_for_enemy MazeMap.is_walkable
    rw [htile]

/-- C6 witness: a concrete parsed maze with the out-of-bounds consequences
evaluated at a concrete coordinate. -/
theorem walkability_total_out_of_bounds_witness :
    ∃ m, MazeMap.parse ("####\n#P.#\n####") = .ok m ∧
      m.tile_at ⟨10, 1⟩ = none ∧ m.is_walkable ⟨10, 1⟩ = false ∧
      m.is_walkable_for_player ⟨10, 1⟩ = false ∧
      m.is_walkable_for_enemy ⟨10, 1⟩ = false := by
  have hok : MazeMap.parse ("####\n#P.#\n####") =
      .ok (MazeMap.mk 4 3
        [[.Wall, .Wall, .Wall, .Wall],
         [.Wall, .PlayerSpawn, .Money, .Wall],
         [.Wall, .Wall, .Wall, .Wall]] ⟨1, 1⟩ [] [] []) := by rfl
  refine ⟨_, hok, ?_⟩
  have hres := walkability_total_out_of_bounds _ _ hok
  exact (hres.2.2 ⟨10, 1⟩ (by right; right; left; decide))

/-- C5: enemy walkability coincides with general walkability at every
coordinate of every maze, and at every in-bounds pen-gate cell the enemy may
walk while the player may not. -/
theorem walkability_asymmetry (m : MazeMap) (pos : GridPosition) :
    m.is_walkable_for_enemy pos = m.is_walkable pos ∧
    (m.tile_at pos = some .PenGate →
      m.is_walkable_for_enemy pos = true ∧
      m.is_walkable_for_player pos = false) := by
  refine ⟨rfl, ?_⟩
  intro hg
  unfold MazeMap.is_walkable_for_enemy MazeMap.is_walkable
    MazeMap.is_walkable_for_player
  rw [hg]
  simp [TileType.is_walkable_floor]

/-- C5 witness: a concrete parsed maze with a pen gate at (1, 0). -/
theorem walkability_asymmetry_witness :
    ∃ m, MazeMap.parse ("#-#\n#P#\n###") = .ok m ∧
      m.tile_at ⟨1, 0⟩ = some .PenGate ∧
      m.is_walkable_for_enemy ⟨1, 0⟩ = true ∧
      m.is_walkable_for_player ⟨1, 0⟩ = false := by
  have hok : MazeMap.parse ("#-#\n#P#\n###") =
      .ok (MazeMap.mk 3 3
        [[.Wall, .PenGate, .Wall],
         [.Wall, .PlayerSpawn, .Wall],
         [.Wall, .Wall, .Wall]] ⟨1, 1⟩ [] [] []) := by rfl
  have hg : (MazeMap.mk 3 3
      [[.Wall, .PenGate, .Wall],
       [.Wall, .PlayerSpawn, .Wall],
       [.Wall, .Wall, .Wall]] ⟨1, 1⟩ [] [] []).tile_at ⟨1, 0⟩ =
      some .PenGate := by decide
  exact ⟨_, hok, hg, (walkability_asymmetry _ ⟨1, 0⟩).2 hg⟩

/-- C2 (amended): for any maze text whose every line character is a
recognized tile character and which contains exactly one P, parsing succeeds
and the resulting player_spawn is the (column, line) coordinate of that P. -/
theorem parse_roundtrip_one_spawn (text : String)
    (hvalid : ∀ line ∈ rlines text.data, ∀ c ∈ line,
      (TileType.from_char c).isSome = true)
    (hone : text.data.count 'P' = 1) :
    ∃ m, MazeMap.parse text = .ok m ∧
      0 ≤ m.player_spawn.x ∧ 0 ≤ m.player_spawn.y ∧
      ((rlines text.data).get? m.player_spawn.y.toNat).bind
        (fun line => line.get? m.player_spawn.x.toNat) = some 'P' := by
  have hcl : countLines 'P' (rlines text.data) = 1 := by
    rw [rlines_count 'P' (by decide) (by decide)]
    exact hone
  have hne : rlines text.data ≠ [] := by
    intro h0
    rw [h0] at hcl
    simp [countLines] at hcl
  have hPline : ∃ line ∈ rlines text.data, 1 ≤ line.count 'P' := by
    by_contra hc
    push_neg at hc
    have hz : countLines 'P' (rlines text.data) = 0 := by
      unfold countLines
      apply List.sum_eq_zero
      intro x hx
      obtain ⟨line, hl, hlx⟩ := List.mem_map.mp hx
      have := hc line hl
      omega
    omega
  have hw0 : maxLen (rlines text.data) ≠ 0 := by
    obtain ⟨line, hl, hcnt⟩ := hPline
    have h1 : line.count 'P' ≤ line.length := List.count_le_length _ _
    have h2 : line.length ≤ maxLen (rlines text.data) := le_maxLen hl
    omega
  obtain ⟨tiles, acc2, hrows, hiff⟩ :=
    parseRows_success (maxLen (rlines text.data)) (rlines text.data) 0
      ⟨none, [], [], []⟩ hvalid (fun _ => by omega) (fun p hp => by simp at hp)
  have hsome : acc2.player_spawn ≠ none := by
    intro hn
    have := hiff.mp hn
    omega
  obtain ⟨q, hq⟩ := Option.ne_none_iff_exists.mp hsome
  have hq : acc2.player_spawn = some q := hq.symm
  have hok : MazeMap.parse text =
      .ok { width := maxLen (rlines text.data),
            height := (rlines text.data).length, tiles := tiles,
            player_spawn := q, enemy_spawns := acc2.enemy_spawns,
            weapon_spawns := acc2.weapon_spawns,
            luxury_spawns := acc2.luxury_spawns } := by
    unfold MazeMap.parse
    rw [if_neg (by simpa using hne), if_neg hw0, hrows]
    simp only [hq]
  rcases parseRows_spawn _ _ _ _ _ _ hrows q hq with hbad | ⟨j, line, i, hj, hP, hy, hx⟩
  · simp at hbad
  · refine ⟨_, hok, ?_, ?_, ?_⟩
    · rw [hx]
      simp
    · rw [hy]
      simp
    · show ((rlines text.data).get? q.y.toNat).bind
        (fun line => line.get? q.x.toNat) = some 'P'
      have hyj : q.y.toNat = j := by rw [hy]; omega
      have hxi : q.x.toNat = i := by rw [hx]; omega
      rw [hyj, hxi, hj]
      simpa using hP

/-- C2 witness: a concrete valid maze text with exactly one P. -/
theorem parse_roundtrip_one_spawn_witness :
    (∀ line ∈ rlines ("####\n#P.#\n####").data, ∀ c ∈ line,
      (TileType.from_char c).isSome = true) ∧
    ("####\n#P.#\n####").data.count 'P' = 1 ∧
    (∃ m, MazeMap.parse ("####\n#P.#\n####") = .ok m ∧
      0 ≤ m.player_spawn.x ∧ 0 ≤ m.player_spawn.y ∧
      ((rlines ("####\n#P.#\n####").data).get? m.player_spawn.y.toNat).bind
        (fun line => line.get? m.player_spawn.x.toNat) = some 'P') :=
  ⟨by decide, by decide,
    parse_roundtrip_one_spawn ("####\n#P.#\n####") (by decide) (by decide)⟩

/-- C2 counterexample: the text P? contains exactly one P, yet parsing fails
(on the unrecognized character), refuting the claim as stated for arbitrary
maze texts. -/
theorem parse_roundtrip_unknown_char_cex :
    ("P?").data.count 'P' = 1 ∧ (MazeMap.parse ("P?")).toOption = none := by
  constructor
  · decide
  · decide

/-- C7: with a MoveLerp in flight, movement validation leaves the entity
entirely unchanged (in particular its logical GridPosition); and in all
cases the logical position either stays or moves to the single cardinally
adjacent cell in the requested direction, at Manhattan distance exactly 1. -/
theorem movement_at_most_one_in_flight (m : MazeMap) (e : MoverState) :
    (∀ l, e.lerp = some l →
      movement_validation m e = ⟨e.pos, some e.dir, some l, e.prev⟩) ∧
    ((movement_validation m e).pos = e.pos ∨
      ((movement_validation m e).pos = stepCell e.pos e.dir ∧
        manhattan (movement_validation m e).pos e.pos = 1)) := by
  constructor
  · intro l hl
    unfold movement_validation
    rw [hl]
  · unfold movement_validation
    cases hl : e.lerp with
    | some l => left; rfl
    | none =>
      by_cases hw : (if e.is_player
          then m.is_walkable_for_player ⟨e.pos.x + e.dir.delta.1, e.pos.y + e.dir.delta.2⟩
          else m.is_walkable_for_enemy ⟨e.pos.x + e.dir.delta.1, e.pos.y + e.dir.delta.2⟩) = true
      · right
        simp only [hw, if_true]
        refine ⟨rfl, ?_⟩
        unfold manhattan
        cases e.dir <;> (simp only [Direction.delta]; omega)
      · left
        simp only [Bool.not_eq_true] at hw
        simp only [hw, Bool.false_eq_true, if_false]

/-- C7 witness: an entity mid-interpolation keeps its position, and a
committed move is a single cardinal step. -/
theorem movement_at_most_one_in_flight_witness :
    movement_validation (MazeMap.mk 1 1 [[.Floor]] ⟨0, 0⟩ [] [] [])
        ⟨⟨0, 0⟩, .Right, some ⟨⟨0, 0⟩, ⟨1, 0⟩⟩, some ⟨0, 0⟩, true⟩ =
      ⟨⟨0, 0⟩, some .Right, some ⟨⟨0, 0⟩, ⟨1, 0⟩⟩, some ⟨0, 0⟩⟩ :=
  (movement_at_most_one_in_flight
    (MazeMap.mk 1 1 [[.Floor]] ⟨0, 0⟩ [] [] [])
    ⟨⟨0, 0⟩, .Right, some ⟨⟨0, 0⟩, ⟨1, 0⟩⟩, some ⟨0, 0⟩, true⟩).1
    ⟨⟨0, 0⟩, ⟨1, 0⟩⟩ rfl

/-- C8: a direction request toward a cell that is not walkable for the mover
leaves the GridPosition unchanged, removes the pending direction, and creates
neither a MoveLerp nor a PreviousGridPosition. -/
theorem movement_wall_rejection (m : MazeMap) (e : MoverState)
    (hl : e.lerp = none)
    (hw : (if e.is_player then m.is_walkable_for_player (stepCell e.pos e.dir)
      else m.is_walkable_for_enemy (stepCell e.pos e.dir)) = false) :
    movement_validation m e = ⟨e.pos, none, none, e.prev⟩ := by
  unfold movement_validation
  rw [hl]
  simp only [stepCell] at hw
  simp only [hw, Bool.false_eq_true, if_false]

/-- C8 witness: requesting a move into a wall is rejected. -/
theorem movement_wall_rejection_witness :
    (MazeMap.mk 2 1 [[.Floor, .Wall]] ⟨0, 0⟩ [] [] []).is_walkable_for_player
        (stepCell ⟨0, 0⟩ .Right) = false ∧
    movement_validation (MazeMap.mk 2 1 [[.Floor, .Wall]] ⟨0, 0⟩ [] [] [])
        ⟨⟨0, 0⟩, .Right, none, none, true⟩ = ⟨⟨0, 0⟩, none, none, none⟩ :=
  ⟨by decide,
    movement_wall_rejection (MazeMap.mk 2 1 [[.Floor, .Wall]] ⟨0, 0⟩ [] [] [])
      ⟨⟨0, 0⟩, .Right, none, none, true⟩ rfl (by decide)⟩

/-- C3: for an eligible enemy the detector declares a collision exactly when
the current cells coincide or both parties recorded a previous cell and
swapped cells this tick; if either previous cell is missing the crossing test
is simply false, so the test reduces to same-tile, with no error raised. -/
theorem collision_declared_iff (ppos : GridPosition)
    (pprev : Option GridPosition) (e : EnemyRec) (lives deaths : Nat) :
    (collisionWith ppos pprev e = true ↔
      (ppos = e.pos ∨ ∃ pp ep, pprev = some pp ∧ e.prev = some ep ∧
        pp = e.pos ∧ ep = ppos)) ∧
    ((pprev = none ∨ e.prev = none) →
      (collisionWith ppos pprev e = true ↔ ppos = e.pos)) ∧
    (eligibleEnemy e = true →
      (enemy_player_collision ppos pprev [e]
        ⟨lives, deaths, false⟩).death_triggered = collisionWith ppos pprev e) := by
  refine ⟨?_, ?_, ?_⟩
  · unfold collisionWith
    cases pprev with
    | none => simp
    | some pp =>
      cases hep : e.prev with
      | none => simp
      | some ep =>
        simp only [Bool.or_eq_true, Bool.and_eq_true, decide_eq_true_eq]
        constructor
        · rintro (h | h)
          · exact Or.inl h
          · exact Or.inr ⟨pp, ep, rfl, rfl, h⟩
        · rintro (h | ⟨pp2, ep2, hp2, he2, h1, h2⟩)
          · exact Or.inl h
          · refine Or.inr ?_
            injection hp2 with hp2
            injection he2 with he2
            rw [hp2, he2]
            exact ⟨h1, h2⟩
  · intro hnone
    unfold collisionWith
    rcases hnone with h | h <;> rw [h]
    · simp
    · cases pprev <;> simp
  · intro helig
    unfold enemy_player_collision
    simp only [List.filter, helig, List.find?]
    cases hc : collisionWith ppos pprev e <;> simp [hc]

/-- C3 witness: a crossing collision between player at (1,1) previously at
(2,1) and an eligible enemy at (2,1) previously at (1,1). -/
theorem collision_declared_iff_witness :
    collisionWith ⟨1, 1⟩ (some ⟨2, 1⟩)
        ⟨⟨2, 1⟩, some ⟨1, 1⟩, false, false, false⟩ = true ∧
    (none = (none : Option GridPosition) ∨
        (some ⟨1, 1⟩ : Option GridPosition) = none) ∧
    (collisionWith ⟨1, 1⟩ none
        ⟨⟨2, 1⟩, some ⟨1, 1⟩, false, false, false⟩ = true ↔
      (⟨1, 1⟩ : GridPosition) = ⟨2, 1⟩) :=
  ⟨by decide, Or.inl rfl,
    (collision_declared_iff ⟨1, 1⟩ none
      ⟨⟨2, 1⟩, some ⟨1, 1⟩, false, false, false⟩ 3 0).2.1 (Or.inl rfl)⟩

/-- C9: on a declared collision, lives decrease by exactly 1 when positive
and stay 0 when already 0 (never underflowing), the death counter increments
by 1, and the death-handling transition is triggered. -/
theorem collision_effects (ppos : GridPosition) (pprev : Option GridPosition)
    (enemies : List EnemyRec) (st : CollisionState)
    (hcol : ∃ e, (enemies.filter eligibleEnemy).find?
      (collisionWith ppos pprev) = some e)
    (hdeaths : st.deaths < 4294967295) :
    (0 < st.lives →
      (enemy_player_collision ppos pprev enemies st).lives + 1 = st.lives) ∧
    (st.lives = 0 →
      (enemy_player_collision ppos pprev enemies st).lives = 0) ∧
    (enemy_player_collision ppos pprev enemies st).deaths = st.deaths + 1 ∧
    (enemy_player_collision ppos pprev enemies st).death_triggered = true := by
  obtain ⟨e, he⟩ := hcol
  unfold enemy_player_collision
  rw [he]
  refine ⟨?_, ?_, ?_, rfl⟩
  · intro h
    simp only [if_pos h]
    omega
  · intro h
    simp [h]
  · simp only []
    omega

/-- C9 witness: a same-tile collision at lives 3, deaths 0. -/
theorem collision_effects_witness :
    (∃ e, (([⟨⟨3, 3⟩, none, false, false, false⟩] :
        List EnemyRec).filter eligibleEnemy).find?
      (collisionWith ⟨3, 3⟩ none) = some e) ∧
    (0 < 3 →
      (enemy_player_collision ⟨3, 3⟩ none
        [⟨⟨3, 3⟩, none, false, false, false⟩] ⟨3, 0, false⟩).lives + 1 = 3) ∧
    (enemy_player_collision ⟨3, 3⟩ none
      [⟨⟨3, 3⟩, none, false, false, false⟩] ⟨3, 0, false⟩).deaths = 0 + 1 ∧
    (enemy_player_collision ⟨3, 3⟩ none
      [⟨⟨3, 3⟩, none, false, false, false⟩] ⟨3, 0, false⟩).death_triggered =
      true := by
  have h := collision_effects ⟨3, 3⟩ none
    [⟨⟨3, 3⟩, none, false, false, false⟩] ⟨3, 0, false⟩
    ⟨⟨⟨3, 3⟩, none, false, false, false⟩, by decide⟩ (by decide)
  exact ⟨⟨⟨⟨3, 3⟩, none, false, false, false⟩, by decide⟩, h.1, h.2.2.1, h.2.2.2⟩

theorem reachesInB_refl (m : MazeMap) : ∀ (n : Nat) (a : GridPosition),
    reachesInB m n a a = true
  | 0, a => by simp [reachesInB]
  | n + 1, a => by simp [reachesInB]

theorem reachesInB_unfold (m : MazeMap) (n : Nat) (a b : GridPosition) :
    reachesInB m (n + 1) a b =
      (decide (a = b) ||
        (m.enemy_neighbors a).any (fun c => reachesInB m n c b)) := rfl

theorem reachesInB_succ (m : MazeMap) (n : Nat) :
    ∀ a b, reachesInB m n a b = true → reachesInB m (n + 1) a b = true := by
  induction n with
  | zero =>
    intro a b h
    simp only [reachesInB, decide_eq_true_eq] at h
    simp [reachesInB, h]
  | succ k ih =>
    intro a b h
    rw [reachesInB_unfold] at h ⊢
    simp only [Bool.or_eq_true, decide_eq_true_eq, List.any_eq_true] at h ⊢
    rcases h with h | ⟨c, hc, h⟩
    · exact Or.inl h
    · exact Or.inr ⟨c, hc, ih c b h⟩

theorem reachesInB_mono (m : MazeMap) {k n : Nat} (h : k ≤ n)
    {a b : GridPosition} (hr : reachesInB m k a b = true) :
    reachesInB m n a b = true := by
  induction n, h using Nat.le_induction with
  | base => exact hr
  | succ n hkn ih => exact reachesInB_succ m n a b ih

theorem reachesInB_snoc (m : MazeMap) : ∀ (n : Nat) (src y x : GridPosition),
    reachesInB m n src y = true → x ∈ m.enemy_neighbors y →
    reachesInB m (n + 1) src x = true := by
  intro n
  induction n with
  | zero =>
    intro src y x h hx
    simp only [reachesInB, decide_eq_true_eq] at h
    subst h
    simp only [reachesInB, Bool.or_eq_true, decide_eq_true_eq,
      List.any_eq_true]
    exact Or.inr ⟨x, hx, by simp⟩
  | succ k ih =>
    intro src y x h hx
    rw [reachesInB_unfold] at h ⊢
    simp only [Bool.or_eq_true, decide_eq_true_eq, List.any_eq_true] at h ⊢
    rcases h with h | ⟨c, hc, h⟩
    · subst h
      exact Or.inr ⟨x, hx, reachesInB_refl m (k + 1) x⟩
    · exact Or.inr ⟨c, hc, ih c y x h hx⟩

theorem mem_expandSet {m : MazeMap} {s : Finset GridPosition}
    {x : GridPosition} :
    x ∈ expandSet m s ↔ x ∈ s ∨ ∃ y ∈ s, x ∈ m.enemy_neighbors y := by
  unfold expandSet nbrFinset
  simp [Finset.mem_union, Finset.mem_biUnion, List.mem_toFinset]

theorem fwdSet_subset_succ (m : MazeMap) (src : GridPosition) (n : Nat) :
    fwdSet m src n ⊆ fwdSet m src (n + 1) := by
  intro x hx
  show x ∈ expandSet m (fwdSet m src n)
  exact mem_expandSet.mpr (Or.inl hx)

theorem fwdSet_mono (m : MazeMap) (src : GridPosition) {k n : Nat}
    (h : k ≤ n) : fwdSet m src k ⊆ fwdSet m src n := by
  induction n, h using Nat.le_induction with
  | base => exact subset_rfl
  | succ n hkn ih => exact subset_trans ih (fwdSet_subset_succ m src n)

theorem fwdSet_shift (m : MazeMap) {src c : GridPosition}
    (hc : c ∈ m.enemy_neighbors src) :
    ∀ n, fwdSet m c n ⊆ fwdSet m src (n + 1) := by
  intro n
  induction n with
  | zero =>
    intro y hy
    simp only [fwdSet, Finset.mem_singleton] at hy
    subst hy
    exact mem_expandSet.mpr (Or.inr ⟨src, Finset.mem_singleton_self src, hc⟩)
  | succ k ih =>
    intro y hy
    rcases mem_expandSet.mp hy with hy | ⟨z, hz, hyz⟩
    · exact fwdSet_subset_succ m src (k + 1) (ih hy)
    · exact mem_expandSet.mpr (Or.inr ⟨z, ih hz, hyz⟩)

theorem mem_fwdSet_iff (m : MazeMap) : ∀ (n : Nat) (src x : GridPosition),
    x ∈ fwdSet m src n ↔ reachesInB m n src x = true := by
  intro n
  induction n with
  | zero =>
    intro src x
    simp [fwdSet, reachesInB, eq_comm]
  | succ k ih =>
    intro src x
    constructor
    · intro hx
      rcases mem_expandSet.mp hx with hx | ⟨y, hy, hxy⟩
      · exact reachesInB_succ m k src x ((ih src x).mp hx)
      · exact reachesInB_snoc m k src y x ((ih src y).mp hy) hxy
    · intro hr
      rw [reachesInB_unfold] at hr
      simp only [Bool.or_eq_true, decide_eq_true_eq, List.any_eq_true] at hr
      rcases hr with hr | ⟨c, hc, hr⟩
      · subst hr
        exact fwdSet_mono m src (Nat.zero_le (k + 1))
          (Finset.mem_singleton_self src)
      · exact fwdSet_shift m hc k ((ih c x).mpr hr)

theorem neighbors_walkable {m : MazeMap} {p q : GridPosition}
    (h : p ∈ m.enemy_neighbors q) : m.is_walkable_for_enemy p = true := by
  unfold MazeMap.enemy_neighbors at h
  exact (List.mem_filter.mp h).2

theorem walkable_mem_univ {m : MazeMap} {p : GridPosition}
    (h : m.is_walkable_for_enemy p = true) (src : GridPosition) :
    p ∈ cellUniv m src := by
  unfold MazeMap.is_walkable_for_enemy MazeMap.is_walkable at h
  unfold MazeMap.tile_at at h
  split at h
  · rename_i t hta
    split at hta
    · exact absurd hta (by simp)
    · rename_i hneg
      push_neg at hneg
      split at hta
      · exact absurd hta (by simp)
      · rename_i row hrow
        have hylen : p.y.toNat < m.tiles.length := by
          by_contra hc
          push_neg at hc
          rw [List.get?_eq_none.mpr hc] at hrow
          exact Option.noConfusion hrow
        have hxlen : p.x.toNat < row.length := by
          by_contra hc
          push_neg at hc
          rw [List.get?_eq_none.mpr hc] at hta
          exact Option.noConfusion hta
        unfold cellUniv
        refine Finset.mem_insert.mpr (Or.inr ?_)
        refine Finset.mem_biUnion.mpr ⟨p.y.toNat,
          Finset.mem_range.mpr hylen, ?_⟩
        refine Finset.mem_image.mpr ⟨p.x.toNat, ?_, ?_⟩
        · refine Finset.mem_range.mpr ?_
          unfold rowLenAt
          rw [hrow]
          exact hxlen
        · have hx : ((p.x.toNat : Nat) : Int) = p.x := Int.toNat_of_nonneg hneg.1
          have hy : ((p.y.toNat : Nat) : Int) = p.y := Int.toNat_of_nonneg hneg.2
          cases p
          simp only at hx hy
          simp [hx, hy]
  · exact absurd h (by simp)

theorem fwdSet_sub_univ (m : MazeMap) (src : GridPosition) :
    ∀ n, fwdSet m src n ⊆ cellUniv m src := by
  intro n
  induction n with
  | zero =>
    intro x hx
    simp only [fwdSet, Finset.mem_singleton] at hx
    subst hx
    exact Finset.mem_insert_self x _
  | succ k ih =>
    intro x hx
    rcases mem_expandSet.mp hx with hx | ⟨y, hy, hxy⟩
    · exact ih hx
    · exact walkable_mem_univ (neighbors_walkable hxy) src

theorem fwdSet_stab (m : MazeMap) (src : GridPosition) {n : Nat}
    (h : fwdSet m src (n + 1) = fwdSet m src n) :
    ∀ j, fwdSet m src (n + j) = fwdSet m src n := by
  intro j
  induction j with
  | zero => rfl
  | succ k ih =>
    have : fwdSet m src (n + (k + 1)) = expandSet m (fwdSet m src (n + k)) := rfl
    rw [this, ih]
    exact h

theorem fwdSet_growth (m : MazeMap) (src : GridPosition) :
    ∀ n, (∀ k < n, fwdSet m src (k + 1) ≠ fwdSet m src k) →
      n ≤ (fwdSet m src n).card := by
  intro n
  induction n with
  | zero => intro _; exact Nat.zero_le _
  | succ k ih =>
    intro hstrict
    have h1 : k ≤ (fwdSet m src k).card :=
      ih (fun j hj => hstrict j (Nat.lt_trans hj (Nat.lt_succ_self k)))
    have h2 : (fwdSet m src k).card < (fwdSet m src (k + 1)).card :=
      Finset.card_lt_card (ssubset_of_ne_of_subset
        (Ne.symm (hstrict k (Nat.lt_succ_self k))) (fwdSet_subset_succ m src k))
    omega

theorem exists_fwdSet_stab (m : MazeMap) (src : GridPosition) :
    ∃ j ≤ (cellUniv m src).card, fwdSet m src (j + 1) = fwdSet m src j := by
  by_contra hc
  push_neg at hc
  have hstrict : ∀ k < (cellUniv m src).card + 1,
      fwdSet m src (k + 1) ≠ fwdSet m src k := by
    intro k hk
    exact hc k (by omega)
  have h1 := fwdSet_growth m src ((cellUniv m src).card + 1) hstrict
  have h2 : (fwdSet m src ((cellUniv m src).card + 1)).card ≤
      (cellUniv m src).card :=
    Finset.card_le_card (fwdSet_sub_univ m src _)
  omega

theorem mem_fwdSet_card (m : MazeMap) (src : GridPosition)
    {x : GridPosition} {k : Nat} (h : x ∈ fwdSet m src k) :
    x ∈ fwdSet m src (cellUniv m src).card := by
  obtain ⟨j, hj, hstab⟩ := exists_fwdSet_stab m src
  by_cases hk : k ≤ (cellUniv m src).card
  · exact fwdSet_mono m src hk h
  · push_neg at hk
    have hkj : k = j + (k - j) := by omega
    rw [hkj] at h
    rw [fwdSet_stab m src hstab (k - j)] at h
    exact fwdSet_mono m src hj h

theorem findLeast_some {p : Nat → Bool} :
    ∀ (fuel start d : Nat), findLeast p fuel start = some d →
      p d = true ∧ start ≤ d ∧ d < start + fuel ∧
        ∀ j, start ≤ j → j < d → p j = false := by
  intro fuel
  induction fuel with
  | zero => intro start d h; simp [findLeast] at h
  | succ f ih =>
    intro start d h
    unfold findLeast at h
    split at h
    · rename_i hp
      injection h with h
      subst h
      exact ⟨hp, Nat.le_refl _, by omega, fun j h1 h2 => by omega⟩
    · rename_i hp
      obtain ⟨h1, h2, h3, h4⟩ := ih (start + 1) d h
      refine ⟨h1, by omega, by omega, ?_⟩
      intro j hj1 hj2
      by_cases hj : j = start
      · subst hj
        exact Bool.not_eq_true _ ▸ (by simpa using hp)
      · exact h4 j (by omega) hj2

theorem findLeast_none {p : Nat → Bool} :
    ∀ (fuel start : Nat), findLeast p fuel start = none →
      ∀ j, start ≤ j → j < start + fuel → p j = false := by
  intro fuel
  induction fuel with
  | zero => intro start h j h1 h2; omega
  | succ f ih =>
    intro start h j h1 h2
    unfold findLeast at h
    split at h
    · exact Option.noConfusion h
    · rename_i hp
      by_cases hj : j = start
      · subst hj
        simpa using hp
      · exact ih (start + 1) h j (by omega) (by omega)

theorem findLeast_complete {p : Nat → Bool} :
    ∀ (fuel start k : Nat), p k = true → start ≤ k → k < start + fuel →
      (findLeast p fuel start).isSome = true := by
  intro fuel
  induction fuel with
  | zero => intro start k _ _ _; omega
  | succ f ih =>
    intro start k hk h1 h2
    unfold findLeast
    split
    · rfl
    · rename_i hp
      have hne : k ≠ start := fun he => by rw [he] at hk; simp [hk] at hp
      exact ih (start + 1) k hk (by omega) (by omega)

theorem bfsDist_sound (m : MazeMap) (src tgt : GridPosition) (d : Nat)
    (h : bfsDist m src tgt = some d) :
    reachesInB m d src tgt = true ∧
      ∀ j < d, reachesInB m j src tgt = false := by
  obtain ⟨h1, _, _, h4⟩ := findLeast_some _ _ _ h
  constructor
  · exact (mem_fwdSet_iff m d src tgt).mp (by simpa using h1)
  · intro j hj
    have := h4 j (Nat.zero_le j) hj
    simp only [decide_eq_false_iff_not] at this
    by_contra hc
    rw [Bool.not_eq_false] at hc
    exact this ((mem_fwdSet_iff m j src tgt).mpr hc)

theorem bfsDist_complete (m : MazeMap) (src tgt : GridPosition) (k : Nat)
    (h : reachesInB m k src tgt = true) :
    ∃ d, bfsDist m src tgt = some d ∧ d ≤ k := by
  have hmem : tgt ∈ fwdSet m src k := (mem_fwdSet_iff m k src tgt).mpr h
  have hN : tgt ∈ fwdSet m src (cellUniv m src).card :=
    mem_fwdSet_card m src hmem
  have hsome := @findLeast_complete (fun n => decide (tgt ∈ fwdSet m src n))
    ((cellUniv m src).card + 1) 0 (cellUniv m src).card
    (by simpa using hN) (Nat.zero_le _) (by omega)
  obtain ⟨d, hd⟩ := Option.isSome_iff_exists.mp hsome
  refine ⟨d, hd, ?_⟩
  obtain ⟨h1, _, _, h4⟩ := findLeast_some _ _ _ hd
  by_contra hc
  push_neg at hc
  have := h4 k (Nat.zero_le k) hc
  simp only [decide_eq_false_iff_not] at this
  exact this hmem

theorem bfsDist_none (m : MazeMap) (src tgt : GridPosition)
    (h : bfsDist m src tgt = none) :
    ∀ k, reachesInB m k src tgt = false := by
  intro k
  by_contra hc
  rw [Bool.not_eq_false] at hc
  obtain ⟨d, hd, _⟩ := bfsDist_complete m src tgt k hc
  rw [h] at hd
  exact Option.noConfusion hd

theorem bfsDist_self (m : MazeMap) (src : GridPosition) :
    bfsDist m src src = some 0 := by
  obtain ⟨d, hd, hd0⟩ := bfsDist_complete m src src 0 (reachesInB_refl m 0 src)
  rw [hd]
  congr
  omega

theorem bfsDist_zero (m : MazeMap) (src tgt : GridPosition)
    (h : bfsDist m src tgt = some 0) : src = tgt := by
  have h1 := (bfsDist_sound m src tgt 0 h).1
  simpa [reachesInB] using h1

theorem bfsDist_first_step (m : MazeMap) (src tgt : GridPosition) (d : Nat)
    (h : bfsDist m src tgt = some (d + 1)) :
    ∃ n, (m.enemy_neighbors src).find?
        (fun n => decide (bfsDist m n tgt = some d)) = some n ∧
      n ∈ m.enemy_neighbors src ∧ bfsDist m n tgt = some d := by
  obtain ⟨hreach, hmin⟩ := bfsDist_sound m src tgt (d + 1) h
  rw [reachesInB_unfold] at hreach
  simp only [Bool.or_eq_true, decide_eq_true_eq, List.any_eq_true] at hreach
  have hne : src ≠ tgt := by
    intro he
    subst he
    have := hmin d (Nat.lt_succ_self d)
    rw [reachesInB_refl m d src] at this
    exact Bool.noConfusion this
  rcases hreach with he | ⟨c, hc, hcr⟩
  · exact absurd he hne
  · obtain ⟨d2, hd2, hd2le⟩ := bfsDist_complete m c tgt d hcr
    have hd2eq : d2 = d := by
      by_contra hcne
      have hd2lt : d2 < d := by omega
      have hr2 := (bfsDist_sound m c tgt d2 hd2).1
      have hstep : reachesInB m (d2 + 1) src tgt = true := by
        rw [reachesInB_unfold]
        simp only [Bool.or_eq_true, decide_eq_true_eq, List.any_eq_true]
        exact Or.inr ⟨c, hc, hr2⟩
      have := hmin (d2 + 1) (by omega)
      rw [hstep] at this
      exact Bool.noConfusion this
    subst hd2eq
    have hex : ∃ x ∈ m.enemy_neighbors src,
        (fun n => decide (bfsDist m n tgt = some d2)) x = true :=
      ⟨c, hc, by simp [hd2]⟩
    obtain ⟨n, hn⟩ := Option.isSome_iff_exists.mp (List.find?_isSome.mpr hex)
    refine ⟨n, hn, List.mem_of_find?_eq_some hn, ?_⟩
    have := List.find?_some hn
    simpa using this

theorem pathFrom_cons (m : MazeMap) (tgt : GridPosition) :
    ∀ (d : Nat) (cur : GridPosition),
      ∃ rest, pathFrom m tgt d cur = cur :: rest := by
  intro d cur
  cases d with
  | zero => exact ⟨[], rfl⟩
  | succ k =>
    unfold pathFrom
    cases (m.enemy_neighbors cur).find?
        (fun n => decide (bfsDist m n tgt = some k)) with
    | none => exact ⟨[], rfl⟩
    | some n => exact ⟨pathFrom m tgt k n, rfl⟩

theorem direction_between_step {a b : GridPosition} {dir : Direction}
    (h : direction_between a b = some dir) : stepCell a dir = b := by
  unfold direction_between at h
  cases a with
  | mk ax ay =>
    cases b with
    | mk bx by2 =>
      simp only at h
      split_ifs at h with h1 h2 h3 h4 <;> injection h with h <;> subst h <;>
        (unfold stepCell
         simp only [Direction.delta]
         simp only [GridPosition.mk.injEq]
         constructor <;> omega)

theorem neighbors_direction {m : MazeMap} {pos n : GridPosition}
    (h : n ∈ m.enemy_neighbors pos) :
    ∃ dir, direction_between pos n = some dir := by
  unfold MazeMap.enemy_neighbors at h
  have hmem := (List.mem_filter.mp h).1
  simp only [List.mem_map, List.mem_cons, List.not_mem_nil, or_false] at hmem
  obtain ⟨dlt, hd, hn⟩ := hmem
  rcases hd with hd | hd | hd | hd <;> subst hd <;> rw [← hn] <;>
    unfold direction_between
  · exact ⟨.Up, by norm_num⟩
  · exact ⟨.Down, by norm_num⟩
  · exact ⟨.Left, by norm_num⟩
  · exact ⟨.Right, by norm_num⟩

theorem manhattan_neighbor {m : MazeMap} {a c : GridPosition}
    (h : c ∈ m.enemy_neighbors a) : manhattan a c = 1 := by
  unfold MazeMap.enemy_neighbors at h
  have hmem := (List.mem_filter.mp h).1
  simp only [List.mem_map, List.mem_cons, List.not_mem_nil, or_false] at hmem
  obtain ⟨dlt, hd, hn⟩ := hmem
  rcases hd with hd | hd | hd | hd <;> subst hd <;> rw [← hn] <;>
    (unfold manhattan; simp only []; omega)

theorem manhattan_triangle (a b c : GridPosition) :
    manhattan a c ≤ manhattan a b + manhattan b c := by
  unfold manhattan
  omega

theorem manhattan_le_reachesInB (m : MazeMap) :
    ∀ (n : Nat) (a b : GridPosition), reachesInB m n a b = true →
      manhattan a b ≤ n := by
  intro n
  induction n with
  | zero =>
    intro a b h
    simp only [reachesInB, decide_eq_true_eq] at h
    subst h
    simp [manhattan]
  | succ k ih =>
    intro a b h
    rw [reachesInB_unfold] at h
    simp only [Bool.or_eq_true, decide_eq_true_eq, List.any_eq_true] at h
    rcases h with h | ⟨c, hc, h⟩
    · subst h
      simp [manhattan]
    · have h1 := manhattan_triangle a c b
      have h2 := manhattan_neighbor hc
      have h3 := ih c b h
      omega

theorem next_direction_self (m : MazeMap) (src : GridPosition) :
    next_direction_toward src src m = none := by
  unfold next_direction_toward astar
  rw [bfsDist_self]
  simp [pathFrom]

theorem next_direction_unreachable (m : MazeMap) (src tgt : GridPosition)
    (h : ∀ k, reachesInB m k src tgt = false) :
    next_direction_toward src tgt m = none := by
  have hb : bfsDist m src tgt = none := by
    cases hb : bfsDist m src tgt with
    | none => rfl
    | some d =>
      have := (bfsDist_sound m src tgt d hb).1
      rw [h d] at this
      exact Bool.noConfusion this
  unfold next_direction_toward astar
  rw [hb]

theorem next_direction_some_char (m : MazeMap) (src tgt : GridPosition)
    (dir : Direction) (h : next_direction_toward src tgt m = some dir) :
    ∃ d, bfsDist m src tgt = some (d + 1) ∧
      stepCell src dir ∈ m.enemy_neighbors src ∧
      bfsDist m (stepCell src dir) tgt = some d := by
  unfold next_direction_toward at h
  split at h
  · exact absurd h (by simp)
  · rename_i steps cost hast
    split at h
    · exact absurd h (by simp)
    · rename_i hlen
      split at h
      · exact absurd h (by simp)
      · rename_i nxt hget
        unfold astar at hast
        split at hast
        · exact Option.noConfusion hast
        · rename_i d hb
          simp only [Option.some.injEq, Prod.mk.injEq] at hast
          have hsteps : steps = pathFrom m tgt d src := hast.1.symm
          cases d with
          | zero =>
            rw [hsteps] at hlen
            simp [pathFrom] at hlen
          | succ k =>
            obtain ⟨n, hf, hmem, hdn⟩ := bfsDist_first_step m src tgt k hb
            obtain ⟨rest, hrest⟩ := pathFrom_cons m tgt k n
            have hlist : pathFrom m tgt (k + 1) src = src :: n :: rest := by
              simp only [pathFrom, hf, hrest]
            rw [hsteps, hlist] at hget
            simp only [List.get?] at hget
            injection hget with hget
            subst hget
            have hstep := direction_between_step h
            rw [hstep]
            exact ⟨k, hb, hmem, hdn⟩

theorem next_direction_exists (m : MazeMap) (src tgt : GridPosition)
    (hne : src ≠ tgt) (k : Nat) (hreach : reachesInB m k src tgt = true) :
    ∃ dir, next_direction_toward src tgt m = some dir := by
  obtain ⟨d, hd, _⟩ := bfsDist_complete m src tgt k hreach
  cases d with
  | zero => exact absurd (bfsDist_zero m src tgt hd) hne
  | succ k2 =>
    obtain ⟨n, hf, hmem, hdn⟩ := bfsDist_first_step m src tgt k2 hd
    obtain ⟨dir, hdir⟩ := neighbors_direction hmem
    obtain ⟨rest, hrest⟩ := pathFrom_cons m tgt k2 n
    have hlist : pathFrom m tgt (k2 + 1) src = src :: n :: rest := by
      simp only [pathFrom, hf, hrest]
    refine ⟨dir, ?_⟩
    unfold next_direction_toward astar
    simp only [hd, hlist]
    simp [hdir]

theorem max_by_key_aux (key : GridPosition → Nat) :
    ∀ (l : List GridPosition) (b t : GridPosition),
      l.foldl (fun acc n =>
        match acc with
        | none => some n
        | some b2 => if key b2 ≤ key n then some n else some b2) (some b) =
          some t →
      (t = b ∧ ∀ x ∈ l, key x < key b) ∨
      (∃ l1 l2, l = l1 ++ t :: l2 ∧ (∀ x ∈ l1, key x ≤ key t) ∧
        (∀ x ∈ l2, key x < key t) ∧ key b ≤ key t) := by
  intro l
  induction l with
  | nil =>
    intro b t h
    simp only [List.foldl_nil, Option.some.injEq] at h
    exact Or.inl ⟨h.symm, by simp⟩
  | cons a l ih =>
    intro b t h
    simp only [List.foldl_cons] at h
    by_cases hab : key b ≤ key a
    · rw [if_pos hab] at h
      rcases ih a t h with ⟨ht, hall⟩ | ⟨l1, l2, hsplit, h1, h2, h3⟩
      · subst ht
        exact Or.inr ⟨[], l, by simp, by simp, hall, hab⟩
      · exact Or.inr ⟨a :: l1, l2, by rw [hsplit]; rfl, by
          intro x hx
          rcases List.mem_cons.mp hx with hx | hx
          · subst hx; omega
          · exact h1 x hx, h2, by omega⟩
    · rw [if_neg hab] at h
      rcases ih b t h with ⟨ht, hall⟩ | ⟨l1, l2, hsplit, h1, h2, h3⟩
      · subst ht
        refine Or.inl ⟨rfl, ?_⟩
        intro x hx
        rcases List.mem_cons.mp hx with hx | hx
        · subst hx; omega
        · exact hall x hx
      · exact Or.inr ⟨a :: l1, l2, by rw [hsplit]; rfl, by
          intro x hx
          rcases List.mem_cons.mp hx with hx | hx
          · subst hx; omega
          · exact h1 x hx, h2, h3⟩

theorem max_by_key_split (key : GridPosition → Nat) (l : List GridPosition)
    (t : GridPosition) (h : max_by_key key l = some t) :
    ∃ l1 l2, l = l1 ++ t :: l2 ∧ (∀ x ∈ l1, key x ≤ key t) ∧
      ∀ x ∈ l2, key x < key t := by
  cases l with
  | nil => simp [max_by_key] at h
  | cons a l2 =>
    unfold max_by_key at h
    simp only [List.foldl_cons] at h
    rcases max_by_key_aux key l2 a t h with ⟨ht, hall⟩ | ⟨l3, l4, hsplit, h1, h2, h3⟩
    · subst ht
      exact ⟨[], l2, by simp, by simp, hall⟩
    · exact ⟨a :: l3, l4, by rw [hsplit]; rfl, by
        intro x hx
        rcases List.mem_cons.mp hx with hx | hx
        · rw [hx]
          exact h3
        · exact h1 x hx, h2⟩

theorem max_by_key_isSome (key : GridPosition → Nat) :
    ∀ (l : List GridPosition) (b : GridPosition),
      (l.foldl (fun acc n =>
        match acc with
        | none => some n
        | some b2 => if key b2 ≤ key n then some n else some b2)
          (some b)).isSome = true := by
  intro l
  induction l with
  | nil => intro b; rfl
  | cons a l ih =>
    intro b
    simp only [List.foldl_cons]
    by_cases hab : key b ≤ key a
    · rw [if_pos hab]; exact ih a
    · rw [if_neg hab]; exact ih b

theorem max_by_key_none_iff (key : GridPosition → Nat)
    (l : List GridPosition) : max_by_key key l = none ↔ l = [] := by
  constructor
  · intro h
    cases l with
    | nil => rfl
    | cons a l2 =>
      unfold max_by_key at h
      simp only [List.foldl_cons] at h
      have := max_by_key_isSome key l2 a
      rw [h] at this
      exact Bool.noConfusion this
  · intro h
    subst h
    rfl

/-- C4: next_direction_toward returns none when origin equals target or no
path over enemy-walkable cells exists; when the origin differs from a
reachable target it returns the first step of some minimum-hop path — a
direction to an enemy-walkable neighbor whose geodesic distance to the
target is exactly one less than the origin's; and whenever the geodesic
distance equals the Manhattan distance (an obstacle-free corridor), the
returned first step reduces the Manhattan distance by exactly 1. -/
theorem pathfinder_first_step (m : MazeMap) (src tgt : GridPosition) :
    (src = tgt → next_direction_toward src tgt m = none) ∧
    ((∀ k, reachesInB m k src tgt = false) →
      next_direction_toward src tgt m = none) ∧
    (src ≠ tgt → ∀ k, reachesInB m k src tgt = true →
      ∃ dir d, next_direction_toward src tgt m = some dir ∧
        bfsDist m src tgt = some (d + 1) ∧
        stepCell src dir ∈ m.enemy_neighbors src ∧
        bfsDist m (stepCell src dir) tgt = some d) ∧
    (∀ dir d, next_direction_toward src tgt m = some dir →
      bfsDist m src tgt = some d → d = manhattan src tgt →
      manhattan (stepCell src dir) tgt + 1 = manhattan src tgt) := by
  refine ⟨?_, ?_, ?_, ?_⟩
  · intro he
    subst he
    exact next_direction_self m src
  · exact next_direction_unreachable m src tgt
  · intro hne k hreach
    obtain ⟨dir, hdir⟩ := next_direction_exists m src tgt hne k hreach
    obtain ⟨d, hd, hmem, hdn⟩ := next_direction_some_char m src tgt dir hdir
    exact ⟨dir, d, hdir, hd, hmem, hdn⟩
  · intro dir d hdir hd hdm
    obtain ⟨d2, hd2, hmem, hdn⟩ := next_direction_some_char m src tgt dir hdir
    rw [hd] at hd2
    injection hd2 with hd2
    have hr2 := (bfsDist_sound m _ tgt d2 hdn).1
    have hub : manhattan (stepCell src dir) tgt ≤ d2 :=
      manhattan_le_reachesInB m d2 _ tgt hr2
    have htri := manhattan_triangle src (stepCell src dir) tgt
    have hone := manhattan_neighbor hmem
    omega

/-- C4 witness: a concrete maze where the enemy is one step below the
player. -/
theorem pathfinder_first_step_witness :
    ((⟨1, 2⟩ : GridPosition) ≠ (⟨1, 1⟩ : GridPosition)) ∧
    reachesInB M4 1 ⟨1, 2⟩ ⟨1, 1⟩ = true ∧
    (∃ dir d, next_direction_toward ⟨1, 2⟩ ⟨1, 1⟩ M4 = some dir ∧
      bfsDist M4 ⟨1, 2⟩ ⟨1, 1⟩ = some (d + 1) ∧
      stepCell ⟨1, 2⟩ dir ∈ M4.enemy_neighbors ⟨1, 2⟩ ∧
      bfsDist M4 (stepCell ⟨1, 2⟩ dir) ⟨1, 1⟩ = some d) :=
  ⟨by decide, by decide,
    (pathfinder_first_step M4 ⟨1, 2⟩ ⟨1, 1⟩).2.2.1 (by decide) 1 (by decide)⟩

/-- C1 (amended): the flee policy returns no direction exactly when the
enemy has no enemy-walkable neighbor; otherwise the returned direction
steps to a neighbor of maximal Manhattan distance from the player — on ties
the LAST maximal neighbor in the enumeration order Up, Down, Left, Right. -/
theorem frightened_flee_policy (m : MazeMap) (e p : GridPosition) :
    (frightened_direction e p m = none ↔ m.enemy_neighbors e = []) ∧
    (∀ dir, frightened_direction e p m = some dir →
      stepCell e dir ∈ m.enemy_neighbors e ∧
      ∃ l1 l2, m.enemy_neighbors e = l1 ++ stepCell e dir :: l2 ∧
        (∀ x ∈ l1, manhattan x p ≤ manhattan (stepCell e dir) p) ∧
        (∀ x ∈ l2, manhattan x p < manhattan (stepCell e dir) p)) := by
  constructor
  · constructor
    · intro h
      simp only [frightened_direction] at h
      split at h
      · rename_i hmax
        exact (max_by_key_none_iff _ _).mp hmax
      · rename_i t hmax
        obtain ⟨l1, l2, hsplit, _, _⟩ := max_by_key_split _ _ _ hmax
        have hmem : t ∈ m.enemy_neighbors e := by rw [hsplit]; simp
        obtain ⟨dir, hdir⟩ := neighbors_direction hmem
        rw [hdir] at h
        exact Option.noConfusion h
    · intro h
      simp only [frightened_direction, h]
      rfl
  · intro dir h
    simp only [frightened_direction] at h
    split at h
    · exact absurd h (by simp)
    · rename_i t hmax
      have hstep := direction_between_step h
      obtain ⟨l1, l2, hsplit, h1, h2⟩ := max_by_key_split _ _ _ hmax
      rw [hstep]
      refine ⟨by rw [hsplit]; simp, l1, l2, hsplit, h1, h2⟩

/-- C1 witness: the flee policy applied in the concrete tie maze. -/
theorem frightened_flee_policy_witness :
    frightened_direction ⟨2, 2⟩ ⟨2, 1⟩ MF = some Direction.Right ∧
    (stepCell ⟨2, 2⟩ Direction.Right ∈ MF.enemy_neighbors ⟨2, 2⟩ ∧
      ∃ l1 l2, MF.enemy_neighbors ⟨2, 2⟩ =
          l1 ++ stepCell ⟨2, 2⟩ Direction.Right :: l2 ∧
        (∀ x ∈ l1, manhattan x ⟨2, 1⟩ ≤
          manhattan (stepCell ⟨2, 2⟩ Direction.Right) ⟨2, 1⟩) ∧
        (∀ x ∈ l2, manhattan x ⟨2, 1⟩ <
          manhattan (stepCell ⟨2, 2⟩ Direction.Right) ⟨2, 1⟩)) :=
  ⟨by decide,
    (frightened_flee_policy MF ⟨2, 2⟩ ⟨2, 1⟩).2 Direction.Right (by decide)⟩

/-- C1 counterexample: in the parsed tie maze the enemy at (2,2) fleeing the
player at (2,1) has Left and Right tied at Manhattan distance 2; the claim's
first-maximal tie-break predicts Left, but the code (Rust max_by_key keeps
the LAST maximal element) returns Right. -/
theorem frightened_tiebreak_cex :
    (MazeMap.parse ("#####\n# P #\n#   #\n#####")).toOption = some MF ∧
    frightened_direction ⟨2, 2⟩ ⟨2, 1⟩ MF = some Direction.Right ∧
    frightened_direction_firstmax ⟨2, 2⟩ ⟨2, 1⟩ MF = some Direction.Left ∧
    frightened_direction ⟨2, 2⟩ ⟨2, 1⟩ MF ≠
      frightened_direction_firstmax ⟨2, 2⟩ ⟨2, 1⟩ MF := by
  refine ⟨by decide, by decide, by decide, by decide⟩

/-- C10: every direction any AI chooser returns points to an enemy-walkable
cell cardinally adjacent to the enemy: the A*-based next_direction_toward
(used directly by soldier and brute and, through the ahead-target, by the
inquisitor), the frightened flee policy, and the thief's random branch. -/
theorem ai_directions_walkable (m : MazeMap) :
    (∀ src tgt dir, next_direction_toward src tgt m = some dir →
      m.is_walkable_for_enemy (stepCell src dir) = true) ∧
    (∀ e p dir, frightened_direction e p m = some dir →
      m.is_walkable_for_enemy (stepCell e dir) = true) ∧
    (∀ pos i dir, random_direction pos m i = some dir →
      m.is_walkable_for_enemy (stepCell pos dir) = true) ∧
    (∀ e p pd c i dir, thief_choose_direction e p pd m c i = some dir →
      m.is_walkable_for_enemy (stepCell e dir) = true) ∧
    (∀ e p pd dir, soldier_choose_direction e p pd m = some dir →
      m.is_walkable_for_enemy (stepCell e dir) = true) ∧
    (∀ e p pd dir, brute_choose_direction e p pd m = some dir →
      m.is_walkable_for_enemy (stepCell e dir) = true) ∧
    (∀ e p pd dir, inquisitor_choose_direction e p pd m = some dir →
      m.is_walkable_for_enemy (stepCell e dir) = true) := by
  have hndt : ∀ src tgt dir, next_direction_toward src tgt m = some dir →
      m.is_walkable_for_enemy (stepCell src dir) = true := by
    intro src tgt dir h
    obtain ⟨d, _, hmem, _⟩ := next_direction_some_char m src tgt dir h
    exact neighbors_walkable hmem
  have hrand : ∀ pos i dir, random_direction pos m i = some dir →
      m.is_walkable_for_enemy (stepCell pos dir) = true := by
    intro pos i dir h
    simp only [random_direction] at h
    split at h
    · exact Option.noConfusion h
    · have hmem := List.get?_mem h
      have hprop := (List.mem_filter.mp hmem).2
      exact hprop
  refine ⟨hndt, ?_, hrand, ?_, ?_, ?_, ?_⟩
  · intro e p dir h
    simp only [frightened_direction] at h
    split at h
    · exact absurd h (by simp)
    · rename_i t hmax
      obtain ⟨l1, l2, hsplit, _, _⟩ := max_by_key_split _ _ _ hmax
      have hmem : t ∈ m.enemy_neighbors e := by rw [hsplit]; simp
      rw [direction_between_step h]
      exact neighbors_walkable hmem
  · intro e p pd c i dir h
    simp only [thief_choose_direction] at h
    split at h
    · exact hndt e p dir h
    · exact hrand e i dir h
  · intro e p pd dir h
    exact hndt e p dir h
  · intro e p pd dir h
    exact hndt e p dir h
  · intro e p pd dir h
    simp only [inquisitor_choose_direction] at h
    exact hndt e _ dir h

/-- C10 witness: the A*-based chooser in the concrete maze returns Up, and
the cell above the enemy is enemy-walkable. -/
theorem ai_directions_walkable_witness :
    next_direction_toward ⟨1, 2⟩ ⟨1, 1⟩ M4 = some Direction.Up ∧
    M4.is_walkable_for_enemy (stepCell ⟨1, 2⟩ Direction.Up) = true :=
  ⟨by decide,
    (ai_directions_walkable M4).1 ⟨1, 2⟩ ⟨1, 1⟩ Direction.Up (by decide)⟩
